import Mathlib

/-!
# Verification of the pydd byte-copy utility

A shallow embedding of `src/pydd.py`: the size-string parser (`size`,
lines 174-210), the transfer planner (`__main__` lines 289-312), the
rate formatter (`rate`, lines 164-172) and the block copy loop
(`__main__` lines 318-348), together with theorems about them.

Bytes are modelled as naturals; a file's contents is a `List Nat`.
Python integers are `Int` (they are unbounded).  The `while True` loop
is modelled with explicit fuel: `copyLoopFuel fuel … = some s` means the
loop reached its `break` within `fuel` iterations and finished in state
`s`, while `none` means it was still running after `fuel` iterations.
-/

namespace Pydd

/-- Bytes are modelled as naturals. -/
abbrev Byte := Nat

/-- Python truthiness of an `Optional[int]`: `None` and `0` are falsy.
Models the guards `if args.count:` (line 294) and `if args.seek:`
(lines 289, 324) of pydd.py. -/
def optIntTruthy : Option Int → Bool
  | none => false
  | some n => n != 0

/-- The mutable state of pydd's read/write loop: the global
`BYTES_WRITTEN` counter, the source file offset, and the bytes written
to the destination so far. -/
structure LoopState where
  bytesWritten : Int
  srcPos : Nat
  dest : List Byte
deriving Repr, DecidableEq

/-- The state at loop entry (lines 322-326): counter 0, nothing written,
source offset as left by the optional `src.seek`. -/
def initState (pos : Nat) : LoopState :=
  ⟨0, pos, []⟩

/-- Python's `src.read(n)` on a file whose contents is `src` and whose
current offset is `pos`: returns at most `n` bytes from the offset
onward (fewer at end of file); a negative `n` reads everything
remaining. -/
def pyRead (src : List Byte) (pos : Nat) (n : Int) : List Byte :=
  if n < 0 then src.drop pos else (src.drop pos).take n.toNat

/-- Lines 329-337 of pydd.py: the `buf_size` computed each iteration.
With an unknown total (`BYTES_TO_WRITE is None`) it is always the block
size; otherwise it is `data_left` when `data_left < args.bs`, else
`args.bs`. -/
def bufSize (total : Option Int) (bs : Int) (written : Int) : Int :=
  match total with
  | none => bs
  | some t =>
      let dataLeft := t - written
      if dataLeft < bs then dataLeft else bs

/-- One pass through the loop body (lines 328-348): `none` when the
`if not buf_size: break` fires, otherwise the state after reading `buf`,
writing it to the destination and running `BYTES_WRITTEN += buf_size`
(the increment is `buf_size`, the requested count, not `len(buf)`). -/
def loopIter (total : Option Int) (bs : Int) (src : List Byte)
    (s : LoopState) : Option LoopState :=
  let n := bufSize total bs s.bytesWritten
  if n = 0 then none
  else
    let buf := pyRead src s.srcPos n
    some ⟨s.bytesWritten + n, s.srcPos + buf.length, s.dest ++ buf⟩

/-- The `while True` loop of lines 328-348, run for at most `fuel`
iterations: `some s` when the loop breaks within the fuel and finishes
in state `s`, `none` when it is still running. -/
def copyLoopFuel : Nat → Option Int → Int → List Byte → LoopState →
    Option LoopState
  | 0, _, _, _, _ => none
  | fuel + 1, total, bs, src, s =>
      match loopIter total bs src s with
      | none => some s
      | some s' => copyLoopFuel fuel total bs src s'

/-- The kind of the source file, as pydd.py distinguishes them with
`is_block_device` / `is_file` / `is_char_device` (lines 299-312). -/
inductive SourceKind
  | RegularFile
  | BlockDevice
  | CharacterDevice
  | Unsupported
deriving Repr, DecidableEq

/-- `input_file.is_char_device()` for a source of the given kind. -/
def SourceKind.isChar : SourceKind → Bool
  | .CharacterDevice => true
  | _ => false

/-- The error exits the embedded part of `__main__` can take
(each is an `eprint` followed by `sys.exit(1)`). -/
inductive PyddError
  | SeekOnUnseekableSource
  | UnsupportedFiletype
deriving Repr, DecidableEq

/-- The argparse values consumed by `__main__`: `args.bs` (line 250,
always present, default 4M), `args.ts` (line 257, optional), `args.count`
(line 263, optional) and `args.seek` (line 268, optional). -/
structure Args where
  bs : Int
  ts : Option Int
  count : Option Int
  seek : Option Int
deriving Repr, DecidableEq

/-- Lines 289-291 of pydd.py: `if input_file.is_char_device() and
args.seek:` report an error and exit.  Python truthiness: `--seek 0`
does not trigger the check. -/
def seekCheck (kind : SourceKind) (seek : Option Int) :
    Except PyddError Unit :=
  if kind.isChar && optIntTruthy seek then
    .error .SeekOnUnseekableSource
  else
    .ok ()

/-- Lines 294-312 of pydd.py: the `BYTES_TO_WRITE` planning.  `if
args.count:` (truthiness: `--count 0` is falsy) gives `args.bs *
args.count`; otherwise the total is derived from the kind of the source
(`sourceSize` is `blockdev_size(input_file)` for a block device and
`input_file.stat().st_size` for a regular file; a character device gives
`None`; anything else exits with an error).  `args.ts` appears nowhere
in this computation — pydd.py parses `--ts` (lines 257-261) but never
reads `args.ts` afterwards. -/
def plan (args : Args) (kind : SourceKind) (sourceSize : Int) :
    Except PyddError (Option Int) :=
  if optIntTruthy args.count then
    .ok (some (args.bs * args.count.getD 0))
  else
    match kind with
    | .BlockDevice => .ok (some sourceSize)
    | .RegularFile => .ok (some sourceSize)
    | .CharacterDevice => .ok none
    | .Unsupported => .error .UnsupportedFiletype

/-- Lines 322-348 of pydd.py: open the files, `if args.seek:
src.seek(args.seek)` — note the argument is passed to `seek` directly,
so the offset is `args.seek` BYTES — then run the copy loop.  Modelled
for non-negative seek values (a negative seek raises `OSError` in
Python and is never exercised here). -/
def runTransfer (fuel : Nat) (args : Args) (src : List Byte)
    (total : Option Int) : Option LoopState :=
  let pos0 : Nat := if optIntTruthy args.seek then (args.seek.getD 0).toNat else 0
  copyLoopFuel fuel total args.bs src (initState pos0)

/-- The embedded part of `__main__` (lines 289-348), after the external
permissions check: the char-device seek check, the `BYTES_TO_WRITE`
planning (with `sourceSize = src.length`, the size `stat`/`blockdev_size`
reports for the modelled contents), then the transfer. -/
def pyddMain (fuel : Nat) (args : Args) (kind : SourceKind)
    (src : List Byte) : Except PyddError (Option LoopState) := do
  let _ ← seekCheck kind args.seek
  let total ← plan args kind (src.length : Int)
  .ok (runTransfer fuel args src total)

/-! ### The size parser (`size`, lines 174-210)

Characters are handled through their code points.  The model covers the
ASCII behaviour of Python's `re.IGNORECASE` and `str.lower` (the
command-line strings the parser consumes); exotic Unicode case
foldings, such as the Kelvin sign for `k`, are outside its scope. -/

/-- `[0-9]` on a character. -/
def isDigitChar (c : Char) : Bool :=
  48 ≤ c.toNat && c.toNat ≤ 57

/-- ASCII lowering of a code point: `A`-`Z` map to `a`-`z`, everything
else is unchanged.  Models `str.lower()` and the effect of
`re.IGNORECASE` on the pattern's literal letters. -/
def lowerNat (n : Nat) : Nat :=
  if 65 ≤ n && n ≤ 90 then n + 32 else n

/-- The exponent a (lowered) suffix code point stands for: `k` (107) is
`1024^1` up to `z` (122) for `1024^7`; anything else is no suffix. -/
def suffixExp (n : Nat) : Option Nat :=
  if n = 107 then some 1        -- k
  else if n = 109 then some 2   -- m
  else if n = 103 then some 3   -- g
  else if n = 116 then some 4   -- t
  else if n = 112 then some 5   -- p
  else if n = 101 then some 6   -- e
  else if n = 122 then some 7   -- z
  else none

/-- `[kmgtpez]` under `re.IGNORECASE`. -/
def isSuffixChar (c : Char) : Bool :=
  (suffixExp (lowerNat c.toNat)).isSome

/-- A full match of `[0-9]+[kmgtpez]?` (case-insensitive) against the
whole character list: a non-empty digit run followed by at most one
suffix letter. -/
def coreMatch (cs : List Char) : Bool :=
  let ds := cs.takeWhile isDigitChar
  let rest := cs.dropWhile isDigitChar
  !ds.isEmpty &&
    match rest with
    | [] => true
    | [c] => isSuffixChar c
    | _ => false

/-- The last character is a newline (code point 10). -/
def endsNewline (cs : List Char) : Bool :=
  match cs.getLast? with
  | some c => c.toNat == 10
  | none => false

/-- A match that ends just before a single trailing newline: Python's
`$` (without `re.MULTILINE`) also matches immediately before a newline
that ends the string. -/
def newlineMatch (cs : List Char) : Bool :=
  endsNewline cs && coreMatch cs.dropLast

/-- Line 191 of pydd.py: `re.search('^[0-9]+[kmgtpez]?$', s,
re.IGNORECASE)`.  `^` anchors at the start; `$` matches at the end of
the string or just before a trailing newline. -/
def regexOK (cs : List Char) : Bool :=
  coreMatch cs || newlineMatch cs

/-- Python `s.isdigit()` on ASCII text: non-empty and all digits. -/
def pyIsDigit (cs : List Char) : Bool :=
  !cs.isEmpty && cs.all isDigitChar

/-- The numeric value of a digit string (what `int(s)` returns on a
string of digits). -/
def strToNat (cs : List Char) : Nat :=
  cs.foldl (fun a c => a * 10 + (c.toNat - 48)) 0

/-- Python `int(s)` on the strings the parser can feed it (runs of
digits, possibly with a stray suffix letter left in by slicing):
`some` of the value when all characters are digits, `none` for the
`ValueError` it raises otherwise.  (`int`'s tolerance for signs and
surrounding whitespace is never exercised by `size`.) -/
def pyInt (cs : List Char) : Option Nat :=
  if pyIsDigit cs then some (strToNat cs) else none

/-- `ch in s.lower()` for a (lowered) code point `ch`. -/
def containsLower (cs : List Char) (code : Nat) : Bool :=
  cs.any (fun c => lowerNat c.toNat == code)

/-- The three ways `size` can come back: a `ValueError` (argparse shows
it as an invalid size), Python `None` (the function falls off the end
of the `elif` chain), or a byte count. -/
inductive SizeResult
  | invalidSize
  | noneValue
  | bytes (n : Nat)
deriving Repr, DecidableEq

/-- Lines 195-210 of pydd.py, after the regex guard: `int(s[:-1]) *
1024 ** e` for a suffix branch; the slice keeps everything but the last
character, and `int` raises when that still holds a letter. -/
def suffixBranch (cs : List Char) (e : Nat) : SizeResult :=
  match pyInt cs.dropLast with
  | none => .invalidSize
  | some n => .bytes (n * 1024 ^ e)

/-- The `elif 'k' in s.lower(): … elif 'z' in s.lower(): …` chain of
lines 197-210, entered when `s.isdigit()` is false; falling through
every branch returns Python `None`. -/
def suffixChain (cs : List Char) : SizeResult :=
  if containsLower cs 107 then suffixBranch cs 1
  else if containsLower cs 109 then suffixBranch cs 2
  else if containsLower cs 103 then suffixBranch cs 3
  else if containsLower cs 116 then suffixBranch cs 4
  else if containsLower cs 112 then suffixBranch cs 5
  else if containsLower cs 101 then suffixBranch cs 6
  else if containsLower cs 122 then suffixBranch cs 7
  else .noneValue

/-- `size` (lines 174-210 of pydd.py) on a character list: the regex
guard raising `ValueError` on failure, then the `isdigit` fast path,
then the suffix chain. -/
def sizeChars (cs : List Char) : SizeResult :=
  if !regexOK cs then .invalidSize
  else if pyIsDigit cs then .bytes (strToNat cs)
  else suffixChain cs

/-- `size(s)` on a Lean string. -/
def size (s : String) : SizeResult :=
  sizeChars s.data

/-- The spec's value of a size string: the digit portion multiplied by
`1024` to the suffix's ordinal (`K`=1 … `Z`=7, no suffix 0). -/
def specSizeValue (cs : List Char) : Nat :=
  strToNat (cs.takeWhile isDigitChar) *
    1024 ^ (match cs.dropWhile isDigitChar with
            | [c] => (suffixExp (lowerNat c.toNat)).getD 0
            | _ => 0)

/-- The amended contract of the size parser, stated as a function: a
full match of the grammar parses to `specSizeValue`; a full match
followed by one trailing newline slips past the regex (Python's `$`),
where a pure digit run then returns Python `None` and a digits+suffix
run still raises; everything else raises. -/
def sizeSpec (cs : List Char) : SizeResult :=
  if coreMatch cs then .bytes (specSizeValue cs)
  else if newlineMatch cs then
    (if pyIsDigit cs.dropLast then .noneValue else .invalidSize)
  else .invalidSize

/-- Lines 164-172 of pydd.py: `rate` computes `bytes_written /
elapsed_time` and formats it.  The division is modelled over `ℚ`;
Python raises `ZeroDivisionError` when `elapsed_time` is zero (there is
no guard in the source), modelled as `.error ()`.  The subsequent
string formatting (`sizeof_fmt(Bps) + "/s"`) is not modelled: the
claims concern only the division. -/
def rate (bytesWritten elapsedTime : ℚ) : Except Unit ℚ :=
  if elapsedTime = 0 then .error () else .ok (bytesWritten / elapsedTime)

end Pydd

namespace Pydd

/-! ## Lemmas about the copy loop -/

theorem loopIter_of_bufSize_eq_zero (total : Option Int) (bs : Int)
    (src : List Byte) (s : LoopState)
    (h : bufSize total bs s.bytesWritten = 0) :
    loopIter total bs src s = none := by
  simp [loopIter, h]

theorem loopIter_of_bufSize_ne_zero (total : Option Int) (bs : Int)
    (src : List Byte) (s : LoopState)
    (h : bufSize total bs s.bytesWritten ≠ 0) :
    loopIter total bs src s =
      some ⟨s.bytesWritten + bufSize total bs s.bytesWritten,
        s.srcPos + (pyRead src s.srcPos (bufSize total bs s.bytesWritten)).length,
        s.dest ++ pyRead src s.srcPos (bufSize total bs s.bytesWritten)⟩ := by
  simp [loopIter, h]

/-- With a known total `t`, positive block size and counter strictly
below `t`, the next `buf_size` is positive and at most `t - w`. -/
theorem bufSize_pos_le (t bs w : Int) (hbs : 0 < bs) (hlt : w < t) :
    0 < bufSize (some t) bs w ∧ bufSize (some t) bs w ≤ t - w := by
  simp only [bufSize]
  split <;> omega

/-- With a known total `t` and the counter already at `t`, the next
`buf_size` is zero (the loop is about to break). -/
theorem bufSize_at_total (t bs : Int) (hbs : 0 < bs) :
    bufSize (some t) bs t = 0 := by
  simp only [bufSize]
  split <;> omega

/-- Reading `a` bytes and then `b` bytes sequentially from a list is
the same as reading `a + b` bytes. -/
theorem take_then_take (L : List Byte) (a b : Nat) :
    L.take a ++ (L.drop (L.take a).length).take b = L.take (a + b) := by
  rcases le_total a L.length with h | h
  · rw [List.length_take, Nat.min_eq_left h, ← List.take_add]
  · rw [List.take_of_length_le h, List.drop_length, List.take_nil,
      List.append_nil, List.take_of_length_le (le_trans h (Nat.le_add_right a b))]

/-- Main loop lemma: with a known planned total `t`, a positive block
size and a state whose counter is a non-negative value at most `t`, the
loop breaks within `(t - w).toNat + 1` iterations; the final counter is
exactly `t`, and the destination has been extended by exactly the bytes
the source delivered for the `t - w` requested ones. -/
theorem copyLoopFuel_known (fuel : Nat) (t bs : Int) (src : List Byte)
    (s : LoopState) (hbs : 0 < bs) (hw : 0 ≤ s.bytesWritten)
    (hwt : s.bytesWritten ≤ t) (hfuel : (t - s.bytesWritten).toNat < fuel) :
    copyLoopFuel fuel (some t) bs src s =
      some ⟨t,
        s.srcPos + min (t - s.bytesWritten).toNat (src.length - s.srcPos),
        s.dest ++ (src.drop s.srcPos).take (t - s.bytesWritten).toNat⟩ := by
  induction fuel generalizing s with
  | zero => omega
  | succ fuel ih =>
    obtain ⟨w, pos, dest⟩ := s
    replace hw : (0 : Int) ≤ w := hw
    replace hwt : w ≤ t := hwt
    replace hfuel : (t - w).toNat < fuel + 1 := hfuel
    show copyLoopFuel (fuel + 1) (some t) bs src ⟨w, pos, dest⟩ =
      some ⟨t, pos + min (t - w).toNat (src.length - pos),
        dest ++ (src.drop pos).take (t - w).toNat⟩
    by_cases heq : w = t
    · subst heq
      rw [copyLoopFuel,
        loopIter_of_bufSize_eq_zero (some w) bs src ⟨w, pos, dest⟩
          (bufSize_at_total w bs hbs)]
      simp
    · have hlt : w < t := lt_of_le_of_ne hwt heq
      obtain ⟨hn0, hnle⟩ := bufSize_pos_le t bs w hbs hlt
      set n := bufSize (some t) bs w with hn
      have hne : n ≠ 0 := by omega
      have hread : pyRead src pos n = (src.drop pos).take n.toNat := by
        rw [pyRead, if_neg (by omega)]
      rw [copyLoopFuel,
        loopIter_of_bufSize_ne_zero (some t) bs src ⟨w, pos, dest⟩ hne]
      show copyLoopFuel fuel (some t) bs src
        ⟨w + n, pos + (pyRead src pos n).length, dest ++ pyRead src pos n⟩ = _
      rw [ih ⟨w + n, pos + (pyRead src pos n).length, dest ++ pyRead src pos n⟩
        (show (0 : Int) ≤ w + n by omega) (show w + n ≤ t by omega)
        (show (t - (w + n)).toNat < fuel by omega)]
      simp only [hread, List.length_take, List.length_drop]
      refine congrArg some ?_
      simp only [LoopState.mk.injEq]
      refine ⟨trivial, by omega, ?_⟩
      rw [List.append_assoc]
      refine congrArg (fun l => dest ++ l) ?_
      have h2 := take_then_take (src.drop pos) n.toNat (t - (w + n)).toNat
      simp only [List.length_take, List.length_drop] at h2
      rw [← List.drop_drop, h2,
        show n.toNat + (t - (w + n)).toNat = (t - w).toNat by omega]

/-- A take never reaches past the end: `l.take k` is `l.take (min
l.length k)`. -/
theorem take_min_length (l : List Byte) (k : Nat) :
    l.take k = l.take (min l.length k) := by
  rcases le_total l.length k with h | h
  · rw [Nat.min_eq_left h, List.take_of_length_le h, List.take_length]
  · rw [Nat.min_eq_right h]

/-- A single loop iteration with a known total keeps the counter at or
below the total (whatever the block size). -/
theorem loopIter_preserves_le (t bs : Int) (src : List Byte)
    (s s' : LoopState) (_hs : s.bytesWritten ≤ t)
    (h : loopIter (some t) bs src s = some s') :
    s'.bytesWritten ≤ t := by
  by_cases hn : bufSize (some t) bs s.bytesWritten = 0
  · rw [loopIter_of_bufSize_eq_zero _ _ _ _ hn] at h
    exact absurd h (by simp)
  · rw [loopIter_of_bufSize_ne_zero _ _ _ _ hn] at h
    have hb : bufSize (some t) bs s.bytesWritten ≤ t - s.bytesWritten := by
      simp only [bufSize]
      split <;> omega
    cases h
    show s.bytesWritten + bufSize (some t) bs s.bytesWritten ≤ t
    omega

/-! ## The claims -/

/-- C1: copying a source of `N = src.length` bytes with a known planned
total `t ≥ 0` and any block size `bs > 0` (including 1, `N`, or more
than `N`) completes normally — with any fuel above `t` the loop breaks —
and the destination then holds the first `min N t` bytes of the source,
byte for byte, exactly `min N t` of them. -/
theorem C1_roundtrip (t bs : Int) (src : List Byte) (fuel : Nat)
    (ht : 0 ≤ t) (hbs : 0 < bs) (hfuel : t.toNat < fuel) :
    copyLoopFuel fuel (some t) bs src (initState 0) =
      some ⟨t, min t.toNat src.length,
        src.take (min src.length t.toNat)⟩ ∧
    (src.take (min src.length t.toNat)).length = min src.length t.toNat := by
  constructor
  · have h := copyLoopFuel_known fuel t bs src (initState 0) hbs le_rfl ht
      (by show (t - 0).toNat < fuel; omega)
    rw [h]
    refine congrArg some ?_
    simp only [LoopState.mk.injEq]
    refine ⟨trivial, ?_, ?_⟩
    · show 0 + min (t - 0).toNat (src.length - 0) = min t.toNat src.length
      omega
    · show [] ++ (src.drop 0).take (t - 0).toNat = src.take (min src.length t.toNat)
      rw [List.nil_append, List.drop_zero, Int.sub_zero, take_min_length]
  · rw [List.length_take]
    omega

/-- C1 witness: total 5, block size 2, a 3-byte source; the loop breaks
with the whole source (3 = min 3 5 bytes) copied verbatim. -/
theorem C1_roundtrip_w :
    copyLoopFuel 6 (some 5) 2 [10, 20, 30] (initState 0) =
      some ⟨5, min (5:Int).toNat [10, 20, 30].length,
        [10, 20, 30].take (min [10, 20, 30].length (5:Int).toNat)⟩ ∧
    (([10, 20, 30] : List Byte).take (min [10, 20, 30].length (5:Int).toNat)).length
      = min [10, 20, 30].length (5:Int).toNat :=
  C1_roundtrip 5 2 [10, 20, 30] 6 (by decide) (by decide) (by decide)

/-- C2 (code bug): planned total 4, block size 2, a one-byte source
`[7]`.  The first iteration reads only 1 byte yet `BYTES_WRITTEN` is
incremented by the 2 requested; the second read returns zero bytes
while more were expected, yet the counter is again incremented by 2 and
the loop does NOT transition to Done there — it runs a third iteration
and breaks only because the overcounted total reached 4. -/
theorem C2_increment_is_requested_not_actual :
    loopIter (some 4) 2 [7] (initState 0) = some ⟨2, 1, [7]⟩ ∧
    loopIter (some 4) 2 [7] ⟨2, 1, [7]⟩ = some ⟨4, 1, [7]⟩ ∧
    copyLoopFuel 5 (some 4) 2 [7] (initState 0) = some ⟨4, 1, [7]⟩ := by
  refine ⟨by decide, by decide, by decide⟩

/-- C3 (code bug): with an unknown planned total (`BYTES_TO_WRITE is
None`, the character-device case) and a nonzero block size, the loop
never breaks: `buf_size` is `args.bs` on every iteration and the empty
reads after end-of-stream are never checked, so no amount of fuel makes
it reach Done — even on a source that yields no bytes at all. -/
theorem C3_unknown_total_never_done (fuel : Nat) (bs : Int)
    (src : List Byte) (s : LoopState) (hbs : bs ≠ 0) :
    copyLoopFuel fuel none bs src s = none := by
  induction fuel generalizing s with
  | zero => rfl
  | succ fuel ih =>
    rw [copyLoopFuel, loopIter_of_bufSize_ne_zero none bs src s hbs]
    exact ih _

/-- C3 witness: an exhausted source, block size 1: five iterations of
fuel and the loop is still running. -/
theorem C3_unknown_total_never_done_w :
    copyLoopFuel 5 none 1 [] (initState 0) = none :=
  C3_unknown_total_never_done 5 1 [] (initState 0) (by decide)

/-- C4 (code bug): the planning of `BYTES_TO_WRITE` never reads
`args.ts`.  With no `--count` and a character-device source the plan is
`None` (unknown) even though `--ts 100` was supplied, and in general
two configurations differing only in `ts` always plan the same total. -/
theorem C4_ts_is_ignored :
    plan ⟨4194304, some 100, none, none⟩ .CharacterDevice 0 = .ok none ∧
    ∀ (bs : Int) (ts ts' count seek : Option Int) (kind : SourceKind)
      (sz : Int),
      plan ⟨bs, ts, count, seek⟩ kind sz = plan ⟨bs, ts', count, seek⟩ kind sz := by
  exact ⟨rfl, fun bs ts ts' count seek kind sz => rfl⟩

/-- C5 counterexample: `--count 0` with a regular 5-byte file: Python's
`if args.count:` is false at 0, so the planner falls through to the
file size 5 instead of returning `blockSize * blockCount = 0`. -/
theorem C5_count_zero_cex :
    plan ⟨2, none, some 0, none⟩ .RegularFile 5 = .ok (some 5) ∧
    plan ⟨2, none, some 0, none⟩ .RegularFile 5 ≠ .ok (some (2 * 0)) := by
  refine ⟨rfl, fun h => ?_⟩
  rw [show plan ⟨2, none, some 0, none⟩ .RegularFile 5 = .ok (some 5) from rfl]
    at h
  simp at h

/-- C5 amended: with `--count` set to any NONZERO integer the planner
returns exactly `blockSize * blockCount`, regardless of the source kind
or its actual size; `--count 0` is falsy in Python and is treated as if
`--count` were unset. -/
theorem C5_count_nonzero_plan (bs : Int) (ts seek : Option Int)
    (c : Int) (hc : c ≠ 0) (kind : SourceKind) (sz : Int) :
    plan ⟨bs, ts, some c, seek⟩ kind sz = .ok (some (bs * c)) := by
  simp [plan, optIntTruthy, hc]

/-- C5 witness: `--count 3`, block size 2, even an unsupported source
kind of size 99: the plan is `2 * 3`. -/
theorem C5_count_nonzero_plan_w :
    plan ⟨2, none, some 3, none⟩ .Unsupported 99 = .ok (some (2 * 3)) :=
  C5_count_nonzero_plan 2 none none 3 (by decide) .Unsupported 99

/-- C7 (code bug): `--seek 2 --bs 1024` against a 10-byte source with
planned total 1.  The code runs `src.seek(args.seek)`, skipping 2 BYTES
(not `2 * 1024`): the destination receives the byte at offset 2 of the
source, whereas skipping `seekBlocks * blockSize = 2048` bytes of this
source would have yielded nothing. -/
theorem C7_seek_is_bytes_not_blocks :
    runTransfer 3 ⟨1024, none, none, some 2⟩ (List.range 10) (some 1) =
      some ⟨1, 3, [2]⟩ ∧
    ((List.range 10).drop (2 * 1024)).take 1 = [] := by
  refine ⟨by decide, by decide⟩

/-- C8 counterexample: `--seek 0` on a character-device source: Python's
`if input_file.is_char_device() and args.seek:` is false at 0, so the
program does NOT fail with SeekOnUnseekableSource — it proceeds into
the transfer. -/
theorem C8_seek_zero_cex :
    pyddMain 5 ⟨1024, none, none, some 0⟩ .CharacterDevice [] = .ok none ∧
    pyddMain 5 ⟨1024, none, none, some 0⟩ .CharacterDevice []
      ≠ .error .SeekOnUnseekableSource := by
  refine ⟨rfl, fun h => ?_⟩
  rw [show pyddMain 5 ⟨1024, none, none, some 0⟩ .CharacterDevice [] = .ok none
    from rfl] at h
  exact Except.noConfusion h

/-- C8 amended: `--seek` with any NONZERO value against a
character-device source fails with `SeekOnUnseekableSource` before the
transfer — the run produces no loop state at all, so no byte is read or
written; `--seek 0` slips through the truthiness check. -/
theorem C8_nonzero_seek_char_device (fuel : Nat) (args : Args)
    (src : List Byte) (k : Int) (hseek : args.seek = some k)
    (hk : k ≠ 0) :
    pyddMain fuel args .CharacterDevice src =
      .error .SeekOnUnseekableSource := by
  simp [pyddMain, seekCheck, SourceKind.isChar, optIntTruthy, hseek, hk,
    Bind.bind, Except.bind]

/-- C8 witness: `--seek 2 --bs 1024` on a character device: immediate
SeekOnUnseekableSource. -/
theorem C8_nonzero_seek_char_device_w :
    pyddMain 0 ⟨1024, none, none, some 2⟩ .CharacterDevice [] =
      .error .SeekOnUnseekableSource :=
  C8_nonzero_seek_char_device 0 ⟨1024, none, none, some 2⟩ [] 2 rfl
    (by decide)

/-- C9 (code bug): `rate` divides unconditionally — at elapsed time 0 it
raises `ZeroDivisionError` (modelled `.error ()`) for every byte count,
instead of guarding and reporting a sentinel. -/
theorem C9_rate_zero_elapsed_raises (b : ℚ) : rate b 0 = .error () := by
  rw [rate, if_pos rfl]

/-- C10: with a known non-negative planned total `t` and a positive
block size, every iteration of the loop keeps `BYTES_WRITTEN ≤ t`
(first conjunct, from any state at or below `t`), and on normal exit
the counter equals `t` exactly — whatever the source actually
delivered (second conjunct: the final state from a fresh start). -/
theorem C10_counter_invariant_exact (t bs : Int) (src : List Byte)
    (s : LoopState) (fuel : Nat) (ht : 0 ≤ t) (hbs : 0 < bs)
    (hs : s.bytesWritten ≤ t) (hfuel : t.toNat < fuel) :
    Option.all (fun s' => decide (s'.bytesWritten ≤ t))
      (loopIter (some t) bs src s) = true ∧
    copyLoopFuel fuel (some t) bs src (initState 0) =
      some ⟨t, min t.toNat src.length, src.take t.toNat⟩ := by
  constructor
  · cases hIt : loopIter (some t) bs src s with
    | none => rfl
    | some s' =>
      show decide (s'.bytesWritten ≤ t) = true
      exact decide_eq_true (loopIter_preserves_le t bs src s s' hs hIt)
  · have h := copyLoopFuel_known fuel t bs src (initState 0) hbs le_rfl ht
      (by show (t - 0).toNat < fuel; omega)
    rw [h]
    refine congrArg some ?_
    simp only [LoopState.mk.injEq]
    refine ⟨trivial, ?_, ?_⟩
    · show 0 + min (t - 0).toNat (src.length - 0) = min t.toNat src.length
      omega
    · show [] ++ (src.drop 0).take (t - 0).toNat = src.take t.toNat
      rw [List.nil_append, List.drop_zero, Int.sub_zero]

/-- C10 witness: total 5, block size 2, a source of only 3 bytes, and a
mid-run state with counter 3: the next iteration stays at or below 5,
and a fresh run ends with the counter exactly 5 even though the source
delivered just 3 bytes. -/
theorem C10_counter_invariant_exact_w :
    Option.all (fun s' => decide (s'.bytesWritten ≤ 5))
      (loopIter (some 5) 2 [1, 2, 3] ⟨3, 3, [1, 2, 3]⟩) = true ∧
    copyLoopFuel 6 (some 5) 2 [1, 2, 3] (initState 0) =
      some ⟨5, min (5:Int).toNat [1, 2, 3].length,
        [1, 2, 3].take (5:Int).toNat⟩ :=
  C10_counter_invariant_exact 5 2 [1, 2, 3] ⟨3, 3, [1, 2, 3]⟩ 6
    (by decide) (by decide) (by decide) (by decide)

/-! ## Lemmas about the size parser -/

theorem digit_lower (c : Char) (h : isDigitChar c = true) :
    lowerNat c.toNat = c.toNat ∧ 48 ≤ c.toNat ∧ c.toNat ≤ 57 := by
  simp only [isDigitChar, Bool.and_eq_true, decide_eq_true_eq] at h
  refine ⟨?_, h.1, h.2⟩
  rw [lowerNat, if_neg]
  simp only [Bool.and_eq_true, decide_eq_true_eq, not_and]
  omega

theorem digit_suffixExp_none (c : Char) (h : isDigitChar c = true) :
    suffixExp (lowerNat c.toNat) = none := by
  obtain ⟨hl, h1, h2⟩ := digit_lower c h
  rw [hl]
  simp only [suffixExp]
  split_ifs <;> first | rfl | omega

theorem suffixExp_none_ne (n : Nat) (h : suffixExp n = none) :
    n ≠ 107 ∧ n ≠ 109 ∧ n ≠ 103 ∧ n ≠ 116 ∧ n ≠ 112 ∧ n ≠ 101 ∧ n ≠ 122 := by
  simp only [suffixExp] at h
  split_ifs at h
  omega

theorem suffix_code_cases (m : Nat) (h : (suffixExp m).isSome = true) :
    m = 107 ∨ m = 109 ∨ m = 103 ∨ m = 116 ∨ m = 112 ∨ m = 101 ∨ m = 122 := by
  simp only [suffixExp] at h
  split_ifs at h <;> first | omega | simp at h

theorem containsLower_of_mem (cs : List Char) (c : Char) (code : Nat)
    (hmem : c ∈ cs) (h : lowerNat c.toNat = code) :
    containsLower cs code = true := by
  simp only [containsLower, List.any_eq_true]
  exact ⟨c, hmem, by simp [h]⟩

theorem containsLower_false (cs : List Char) (code : Nat)
    (h : ∀ c ∈ cs, lowerNat c.toNat ≠ code) :
    containsLower cs code = false := by
  simp only [containsLower, List.any_eq_false]
  intro c hc
  simp only [beq_iff_eq]
  exact h c hc

/-- If no character of the string lowers to a suffix code point, the
`elif` chain falls through and returns Python `None`. -/
theorem suffixChain_none (cs : List Char)
    (h : ∀ c ∈ cs, suffixExp (lowerNat c.toNat) = none) :
    suffixChain cs = .noneValue := by
  have hf : ∀ code, code = 107 ∨ code = 109 ∨ code = 103 ∨ code = 116 ∨
      code = 112 ∨ code = 101 ∨ code = 122 →
      containsLower cs code = false := by
    intro code hcode
    refine containsLower_false cs code (fun c hc => ?_)
    have := suffixExp_none_ne _ (h c hc)
    omega
  simp only [suffixChain]
  rw [hf 107 (by omega), hf 109 (by omega), hf 103 (by omega),
    hf 116 (by omega), hf 112 (by omega), hf 101 (by omega),
    hf 122 (by omega)]
  simp

/-- If exactly one character of the string lowers to a suffix code
point, the `elif` chain lands on that character's branch. -/
theorem suffixChain_single (cs : List Char) (c : Char) (e : Nat)
    (hmem : c ∈ cs)
    (hother : ∀ d ∈ cs, d ≠ c → suffixExp (lowerNat d.toNat) = none)
    (he : suffixExp (lowerNat c.toNat) = some e) :
    suffixChain cs = suffixBranch cs e := by
  have hm7 := suffix_code_cases (lowerNat c.toNat) (by rw [he]; rfl)
  have hcl : ∀ code, code = 107 ∨ code = 109 ∨ code = 103 ∨ code = 116 ∨
      code = 112 ∨ code = 101 ∨ code = 122 →
      containsLower cs code = (lowerNat c.toNat == code) := by
    intro code hcode
    by_cases hm : lowerNat c.toNat = code
    · rw [containsLower_of_mem cs c code hmem hm, hm, beq_self_eq_true]
    · have hb : (lowerNat c.toNat == code) = false := by
        simp [hm]
      rw [hb]
      refine containsLower_false cs code (fun d hd => ?_)
      by_cases hdc : d = c
      · subst hdc
        exact hm
      · have := suffixExp_none_ne _ (hother d hd hdc)
        omega
  simp only [suffixChain]
  rw [hcl 107 (by omega), hcl 109 (by omega), hcl 103 (by omega),
    hcl 116 (by omega), hcl 112 (by omega), hcl 101 (by omega),
    hcl 122 (by omega)]
  rcases hm7 with h | h | h | h | h | h | h <;>
    (rw [h] at he ⊢; simp [suffixExp] at he; subst he; simp)

/-- Eliminating a full regex match: the string is a non-empty run of
digits, possibly followed by a single suffix letter. -/
theorem coreMatch_elim (cs : List Char) (h : coreMatch cs = true) :
    (pyIsDigit cs = true ∧ cs.dropWhile isDigitChar = []) ∨
    (∃ ds c, cs = ds ++ [c] ∧ ds = cs.takeWhile isDigitChar ∧
      cs.dropWhile isDigitChar = [c] ∧ pyIsDigit ds = true ∧
      isDigitChar c = false ∧ isSuffixChar c = true) := by
  have hsplit := List.takeWhile_append_dropWhile isDigitChar cs
  simp only [coreMatch, Bool.and_eq_true, Bool.not_eq_true'] at h
  obtain ⟨hne, hrest⟩ := h
  rcases hdw : cs.dropWhile isDigitChar with _ | ⟨c, _ | ⟨c2, tl⟩⟩
  · left
    rw [hdw, List.append_nil] at hsplit
    refine ⟨?_, rfl⟩
    have hall : cs.all isDigitChar = true := by
      rw [List.all_eq_true]
      intro x hx
      rw [← hsplit] at hx
      exact List.mem_takeWhile_imp hx
    have hnem : cs.isEmpty = false := by
      rw [← hsplit]
      exact hne
    simp [pyIsDigit, hall, hnem]
  · right
    simp only [hdw] at hrest
    rw [hdw] at hsplit
    have hdc : isDigitChar c = false := by
      cases hdcv : isDigitChar c with
      | false => rfl
      | true =>
        have h1 := digit_suffixExp_none c hdcv
        rw [isSuffixChar, h1] at hrest
        simp at hrest
    refine ⟨cs.takeWhile isDigitChar, c, hsplit.symm, rfl, rfl, ?_, hdc, hrest⟩
    have hall : (cs.takeWhile isDigitChar).all isDigitChar = true := by
      rw [List.all_eq_true]
      intro x hx
      exact List.mem_takeWhile_imp hx
    simp [pyIsDigit, hall, hne]
  · simp only [hdw] at hrest
    cases hrest

/-- The size parser agrees everywhere with the amended classification
`sizeSpec`. -/
theorem sizeChars_eq_sizeSpec (cs : List Char) :
    sizeChars cs = sizeSpec cs := by
  by_cases h1 : coreMatch cs = true
  · have hreg : regexOK cs = true := by rw [regexOK, h1]; rfl
    rcases coreMatch_elim cs h1 with ⟨hpd, hdw⟩ |
      ⟨ds, c, hcs, hds, hdw, hpds, hdc, hsc⟩
    · have htw : cs.takeWhile isDigitChar = cs := by
        have hsp := List.takeWhile_append_dropWhile isDigitChar cs
        rw [hdw, List.append_nil] at hsp
        exact hsp
      simp [sizeChars, sizeSpec, hreg, h1, hpd]
      simp [specSizeValue, hdw, htw]
    · have he := Option.isSome_iff_exists.mp
        (by rw [isSuffixChar] at hsc; exact hsc)
      obtain ⟨e, he⟩ := he
      have hallds : ∀ x ∈ ds, isDigitChar x = true := by
        have hp := hpds
        simp only [pyIsDigit, Bool.and_eq_true, List.all_eq_true] at hp
        exact hp.2
      have hpd : pyIsDigit cs = false := by
        simp [pyIsDigit, hcs, hdc]
      have hchain : suffixChain cs = suffixBranch cs e := by
        refine suffixChain_single cs c e ?_ ?_ he
        · rw [hcs]
          exact List.mem_append_right ds (List.mem_singleton.mpr rfl)
        · intro d hd hne2
          rw [hcs] at hd
          rcases List.mem_append.mp hd with hd | hd
          · exact digit_suffixExp_none d (hallds d hd)
          · rw [List.mem_singleton] at hd
            exact absurd hd hne2
      have hdl : cs.dropLast = ds := by
        rw [hcs]
        simp
      have hbr : suffixBranch cs e = .bytes (strToNat ds * 1024 ^ e) := by
        rw [suffixBranch, hdl]
        simp [pyInt, hpds]
      have hL : sizeChars cs = suffixBranch cs e := by
        simp [sizeChars, hreg, hpd, hchain]
      have hR : sizeSpec cs = .bytes (strToNat ds * 1024 ^ e) := by
        simp [sizeSpec, h1, specSizeValue, hdw, ← hds, he]
      rw [hL, hR]
      exact hbr
  · by_cases h2 : newlineMatch cs = true
    · have hcm : coreMatch cs = false := by simpa using h1
      have hreg : regexOK cs = true := by rw [regexOK, hcm, h2]; rfl
      have hnm := h2
      simp only [newlineMatch, Bool.and_eq_true] at hnm
      obtain ⟨hend, hcm'⟩ := hnm
      have hne : cs ≠ [] := by
        intro hnil
        rw [hnil] at hend
        simp [endsNewline] at hend
      have hback : cs.dropLast ++ [cs.getLast hne] = cs :=
        List.dropLast_append_getLast hne
      have hnl10 : (cs.getLast hne).toNat = 10 := by
        simp only [endsNewline, List.getLast?_eq_getLast cs hne] at hend
        simpa using hend
      have hnldig : isDigitChar (cs.getLast hne) = false := by
        simp [isDigitChar, hnl10]
      have hnlsuf : suffixExp (lowerNat (cs.getLast hne).toNat) = none := by
        rw [hnl10]
        rfl
      have hpd : pyIsDigit cs = false := by
        rw [← hback]
        simp [pyIsDigit, hnldig]
      rcases coreMatch_elim cs.dropLast hcm' with ⟨hpd', hdw'⟩ |
        ⟨ds, c, hcs', hds', hdw', hpds', hdc', hsc'⟩
      · have hchain : suffixChain cs = .noneValue := by
          refine suffixChain_none cs (fun d hd => ?_)
          rw [← hback] at hd
          rcases List.mem_append.mp hd with hd | hd
          · have hdd : isDigitChar d = true := by
              have hp := hpd'
              simp only [pyIsDigit, Bool.and_eq_true, List.all_eq_true] at hp
              exact hp.2 d hd
            exact digit_suffixExp_none d hdd
          · rw [List.mem_singleton] at hd
            rw [hd]
            exact hnlsuf
        simp [sizeChars, sizeSpec, hreg, hcm, h2, hpd, hpd', hchain]
      · have he := Option.isSome_iff_exists.mp
          (by rw [isSuffixChar] at hsc'; exact hsc')
        obtain ⟨e, he⟩ := he
        have hallds : ∀ x ∈ ds, isDigitChar x = true := by
          have hp := hpds'
          simp only [pyIsDigit, Bool.and_eq_true, List.all_eq_true] at hp
          exact hp.2
        have hchain : suffixChain cs = suffixBranch cs e := by
          refine suffixChain_single cs c e ?_ ?_ he
          · rw [← hback, hcs']
            exact List.mem_append_left _
              (List.mem_append_right _ (List.mem_singleton.mpr rfl))
          · intro d hd hne2
            rw [← hback] at hd
            rcases List.mem_append.mp hd with hd | hd
            · rw [hcs'] at hd
              rcases List.mem_append.mp hd with hd | hd
              · exact digit_suffixExp_none d (hallds d hd)
              · rw [List.mem_singleton] at hd
                exact absurd hd hne2
            · rw [List.mem_singleton] at hd
              rw [hd]
              exact hnlsuf
        have hpdl : pyIsDigit cs.dropLast = false := by
          rw [hcs']
          simp [pyIsDigit, hdc']
        have hbr : suffixBranch cs e = .invalidSize := by
          rw [suffixBranch]
          simp [pyInt, hpdl]
        simp [sizeChars, sizeSpec, hreg, hcm, h2, hpd, hpdl, hchain, hbr]
    · have hcm : coreMatch cs = false := by simpa using h1
      have hnm : newlineMatch cs = false := by simpa using h2
      have hreg : regexOK cs = false := by rw [regexOK, hcm, hnm]; rfl
      simp [sizeChars, sizeSpec, hreg, hcm, hnm]

/-- C6 counterexample: the string of `1`, `2` and a newline does not
match `^[0-9]+[KMGTPEZ]?$` as a whole string, yet `size` does not fail
with InvalidSize: Python's `$` matches before the trailing newline,
`isdigit` is false, no suffix letter is found, and the function falls
off the end of the `elif` chain, returning Python `None`. -/
theorem C6_trailing_newline_cex :
    size "12\n" = .noneValue ∧ size "12\n" ≠ .invalidSize ∧
    size "12\n" ≠ .bytes 12 := by
  refine ⟨by decide, by decide, by decide⟩

/-- C6 amended: `size` succeeds with the digit portion times
`1024^ordinal` exactly on full matches of `^[0-9]+[KMGTPEZ]?$`
(case-insensitive), and fails with InvalidSize on every other string,
EXCEPT a full match followed by one trailing newline, which passes the
regex guard: all-digits-plus-newline returns Python `None` (no value,
no error), digits-plus-suffix-plus-newline still fails.  Stated as:
`size` agrees everywhere with the classification `sizeSpec`. -/
theorem C6_size_amended (s : String) : size s = sizeSpec s.data :=
  sizeChars_eq_sizeSpec s.data

end Pydd
